import Mathlib

/-!
Verification of twisted/web/http_headers.py (Headers and _DictHeaders).

Shallow embedding conventions:
- Python bytes values are modelled as lists of naturals (one per byte).
- Python unicode strings are modelled as Lean strings.
- A bytes-or-text argument (header name or value) is a two-variant sum.
- The internal storage dict (bytes keys to lists of bytes values) is an
  insertion-ordered association list; assignment to an existing key keeps
  its position, a new key is appended, matching dict semantics.
- name.encode with the iso-8859-1 codec is modelled totally as the map of
  each character to its code point; it is faithful to Python only for
  names whose characters are below 256 (Python raises otherwise), and
  theorems about text names carry that hypothesis where relevant.
- str.lower is modelled on its ASCII fragment (the HTTP header domain);
  bytes.lower and bytes.capitalize are ASCII in Python itself.
- value.encode with the utf-8 codec and bytes.decode with the utf-8 codec
  are modelled by an explicit arithmetic UTF-8 coder; decoding of invalid
  byte sequences yields an error, as in Python.
- Python exceptions (TypeError, KeyError, decode errors) are modelled with
  an Except layer naming the exception class.
-/

namespace HttpHeaders

/-- A Python bytes object: a list of byte values. -/
abbrev ByteStr := List Nat

/-- ASCII lower-casing of one byte, as done by Python bytes.lower. -/
def byteLower (b : Nat) : Nat :=
  if 65 ≤ b ∧ b ≤ 90 then b + 32 else b

/-- ASCII upper-casing of one byte, as done by Python bytes.upper. -/
def byteUpper (b : Nat) : Nat :=
  if 97 ≤ b ∧ b ≤ 122 then b - 32 else b

/-- Python bytes.lower: ASCII lower-casing of every byte. -/
def bytesLower (b : ByteStr) : ByteStr := b.map byteLower

/-- Python str.encode with the iso-8859-1 codec, modelled totally as the
code point of each character.  Faithful when every character is below 256
(Python raises UnicodeEncodeError otherwise). -/
def latin1Encode (s : String) : ByteStr := s.data.map Char.toNat

/-- Python bytes.decode with the iso-8859-1 codec: each byte becomes the
character with that code point. -/
def latin1Decode (b : ByteStr) : String := ⟨b.map Char.ofNat⟩

/-- ASCII lower-casing of one character (the fragment of Python str.lower
exercised by HTTP header names). -/
def asciiLowerChar (c : Char) : Char :=
  if 65 ≤ c.toNat ∧ c.toNat ≤ 90 then Char.ofNat (c.toNat + 32) else c

/-- Python str.lower on its ASCII fragment. -/
def strLower (s : String) : String := ⟨s.data.map asciiLowerChar⟩

/-- UTF-8 encoding of one character (unicode scalar value), by arithmetic
on the code point. -/
def utf8EncodeChar (c : Char) : List Nat :=
  let n := c.toNat
  if n < 128 then [n]
  else if n < 2048 then [192 + n / 64, 128 + n % 64]
  else if n < 65536 then [224 + n / 4096, 128 + n / 64 % 64, 128 + n % 64]
  else [240 + n / 262144, 128 + n / 4096 % 64, 128 + n / 64 % 64, 128 + n % 64]

/-- Python str.encode with the utf-8 codec. -/
def utf8Encode (s : String) : ByteStr := (s.data.map utf8EncodeChar).flatten

/-- Whether a code point is in the surrogate range (rejected by UTF-8). -/
def isSurrogate (n : Nat) : Bool := 55296 ≤ n && n < 57344

/-- Whether a byte is a UTF-8 continuation byte. -/
def isCont (b : Nat) : Bool := 128 ≤ b && b < 192

set_option maxRecDepth 8000

/-- UTF-8 decoding of a byte list into characters; none on any invalid,
overlong, surrogate or out-of-range sequence, as Python bytes.decode with
the utf-8 codec raises UnicodeDecodeError there. -/
def utf8DecodeList : List Nat → Option (List Char)
  | [] => some []
  | b0 :: rest =>
    if b0 < 128 then
      (utf8DecodeList rest).map fun cs => Char.ofNat b0 :: cs
    else if b0 < 192 then none
    else if b0 < 224 then
      match rest with
      | [] => none
      | b1 :: rest1 =>
        if isCont b1 then
          if (b0 - 192) * 64 + (b1 - 128) < 128 then none
          else
            (utf8DecodeList rest1).map
              fun cs => Char.ofNat ((b0 - 192) * 64 + (b1 - 128)) :: cs
        else none
    else if b0 < 240 then
      match rest with
      | [] => none
      | b1 :: rest1 =>
        match rest1 with
        | [] => none
        | b2 :: rest2 =>
          if isCont b1 && isCont b2 then
            if (b0 - 224) * 4096 + (b1 - 128) * 64 + (b2 - 128) < 2048 then none
            else if isSurrogate ((b0 - 224) * 4096 + (b1 - 128) * 64 + (b2 - 128))
            then none
            else
              (utf8DecodeList rest2).map
                fun cs =>
                  Char.ofNat ((b0 - 224) * 4096 + (b1 - 128) * 64 + (b2 - 128))
                    :: cs
          else none
    else if b0 < 248 then
      match rest with
      | [] => none
      | b1 :: rest1 =>
        match rest1 with
        | [] => none
        | b2 :: rest2 =>
          match rest2 with
          | [] => none
          | b3 :: rest3 =>
            if isCont b1 && isCont b2 && isCont b3 then
              if (b0 - 240) * 262144 + (b1 - 128) * 4096 + (b2 - 128) * 64
                  + (b3 - 128) < 65536 then none
              else if 1114112 ≤
                  (b0 - 240) * 262144 + (b1 - 128) * 4096 + (b2 - 128) * 64
                    + (b3 - 128)
              then none
              else
                (utf8DecodeList rest3).map
                  fun cs =>
                    Char.ofNat
                      ((b0 - 240) * 262144 + (b1 - 128) * 4096 + (b2 - 128) * 64
                        + (b3 - 128)) :: cs
            else none
    else none

/-- Python bytes.decode with the utf-8 codec. -/
def utf8Decode (b : ByteStr) : Option String :=
  (utf8DecodeList b).map fun cs => ⟨cs⟩

/-- A header name argument: Python bytes or Python unicode text. -/
inductive HName where
  | bytes (b : ByteStr)
  | text (s : String)
  deriving DecidableEq, Repr

/-- A header value argument: Python bytes or Python unicode text. -/
inductive HValue where
  | bytes (b : ByteStr)
  | text (s : String)
  deriving DecidableEq, Repr

/-- Headers._encodeName: encode a text name with iso-8859-1, pass bytes
through. -/
def encodeName : HName → ByteStr
  | .bytes b => b
  | .text s => latin1Encode s

/-- name.lower() on a bytes-or-text name. -/
def lowerName : HName → HName
  | .bytes b => .bytes (bytesLower b)
  | .text s => .text (strLower s)

/-- Headers._encodeValue: encode a text value with utf-8, pass bytes
through. -/
def encodeValue : HValue → ByteStr
  | .bytes b => b
  | .text s => utf8Encode s

/-- Lookup in an insertion-ordered association list (Python dict.get). -/
def dictLookup : List (ByteStr × List ByteStr) → ByteStr → Option (List ByteStr)
  | [], _ => none
  | (k, v) :: rest, key => if k = key then some v else dictLookup rest key

/-- Assignment in an insertion-ordered association list (Python dict
item assignment): an existing key keeps its position, a new key is
appended at the end. -/
def dictInsert : List (ByteStr × List ByteStr) → ByteStr → List ByteStr →
    List (ByteStr × List ByteStr)
  | [], key, val => [(key, val)]
  | (k, v) :: rest, key, val =>
    if k = key then (k, val) :: rest else (k, v) :: dictInsert rest key val

/-- Removal from an association list (Python dict.pop with a default:
a missing key is a no-op). -/
def dictRemove : List (ByteStr × List ByteStr) → ByteStr →
    List (ByteStr × List ByteStr)
  | [], _ => []
  | (k, v) :: rest, key => if k = key then rest else (k, v) :: dictRemove rest key

/-- The Headers object: its _rawHeaders dict, mapping encoded lowercase
names to lists of encoded values. -/
structure Headers where
  rawHeaders : List (ByteStr × List ByteStr)
  deriving DecidableEq, Repr

/-- Shorthand building a ByteStr from the code points of an ASCII/latin-1
string literal, used to transcribe the bytes literals of the source. -/
def bs (s : String) : ByteStr := s.data.map Char.toNat

/-- Headers._caseMappings: the static table of irregular canonical
capitalizations, keyed by lowercase name. -/
def caseMappings : List (ByteStr × ByteStr) :=
  [(bs "content-md5", bs "Content-MD5"),
   (bs "dnt", bs "DNT"),
   (bs "etag", bs "ETag"),
   (bs "p3p", bs "P3P"),
   (bs "te", bs "TE"),
   (bs "www-authenticate", bs "WWW-Authenticate"),
   (bs "x-xss-protection", bs "X-XSS-Protection")]

/-- Lookup in the static case-mapping table (Python dict.get on
_caseMappings). -/
def caseMappingLookup : List (ByteStr × ByteStr) → ByteStr → Option ByteStr
  | [], _ => none
  | (k, v) :: rest, key => if k = key then some v else caseMappingLookup rest key

/-- Python bytes.split on the dash byte 45; like Python split, empty
segments are kept and the result is never the empty list. -/
def splitOnDash : ByteStr → List ByteStr
  | [] => [[]]
  | b :: rest =>
    if b = 45 then [] :: splitOnDash rest
    else
      match splitOnDash rest with
      | w :: ws => (b :: w) :: ws
      | [] => [[b]]

/-- Python separator.join for the dash byte 45. -/
def joinDash : List ByteStr → ByteStr
  | [] => []
  | [w] => w
  | w :: ws => w ++ 45 :: joinDash ws

/-- Python bytes.capitalize: first byte upper-cased, the rest lower-cased
(ASCII). -/
def bytesCapitalize : ByteStr → ByteStr
  | [] => []
  | c :: rest => byteUpper c :: rest.map byteLower

/-- _dashCapitalize: capitalize a byte-string name using the dash as a
word separator. -/
def dashCapitalize (name : ByteStr) : ByteStr :=
  joinDash ((splitOnDash name).map bytesCapitalize)

/-- Headers._canonicalNameCaps on the encoded (bytes) name: the irregular
table value when present, else the dash-capitalized form. -/
def canonicalNameCapsB (name : ByteStr) : ByteStr :=
  match caseMappingLookup caseMappings name with
  | some canonical => canonical
  | none => dashCapitalize name

/-- Headers._canonicalNameCaps: encode the name, canonicalize, and decode
back when the argument was text. -/
def canonicalNameCaps (name : HName) : HName :=
  let canonicalName := canonicalNameCapsB (encodeName name)
  match name with
  | .bytes _ => .bytes canonicalName
  | .text _ => .text (latin1Decode canonicalName)

/-- The dynamic type of the values argument of setRawHeaders and of the
default argument of getRawHeaders: a list of bytes-or-text values, or one
of the non-list Python objects relevant to these calls. -/
inductive PyValues where
  | list (xs : List HValue)
  | str (s : String)
  | bytes (b : ByteStr)
  | none
  | int (n : Int)
  deriving DecidableEq, Repr

/-- Headers.hasHeader: membership of the encoded lowered name in the
raw-headers dict. -/
def hasHeader (h : Headers) (name : HName) : Bool :=
  (dictLookup h.rawHeaders (encodeName (lowerName name))).isSome

/-- Headers.removeHeader: pop the encoded lowered name, missing key a
no-op. -/
def removeHeader (h : Headers) (name : HName) : Headers :=
  ⟨dictRemove h.rawHeaders (encodeName (lowerName name))⟩

/-- The successful branch of Headers.setRawHeaders: store the encoded
values under the encoded lowered name. -/
def setRawHeadersList (h : Headers) (name : HName) (values : List HValue) :
    Headers :=
  ⟨dictInsert h.rawHeaders (encodeName (lowerName name)) (values.map encodeValue)⟩

/-- Headers.setRawHeaders: a TypeError when the values argument is not a
list, else the list branch. -/
def setRawHeaders (h : Headers) (name : HName) (values : PyValues) :
    Except String Headers :=
  match values with
  | .list xs => .ok (setRawHeadersList h name xs)
  | _ => .error "TypeError"

/-- Decoding of one stored value by Headers._decodeValues: utf-8 decoding
of a bytes element (UnicodeDecodeError on invalid bytes); a text element
has no decode method (AttributeError, as under Python 3). -/
def decodeValueItem : HValue → Except String HValue
  | .bytes b =>
    match utf8Decode b with
    | some s => .ok (.text s)
    | Option.none => .error "UnicodeDecodeError"
  | .text _ => .error "AttributeError"

/-- Elementwise decoding of a value list by Headers._decodeValues. -/
def decodeValueList : List HValue → Except String (List HValue)
  | [] => .ok []
  | x :: xs =>
    match decodeValueItem x with
    | .ok y =>
      match decodeValueList xs with
      | .ok ys => .ok (y :: ys)
      | .error e => .error e
    | .error e => .error e

/-- Headers._decodeValues: anything that is not a list is returned
unchanged; a list is decoded elementwise. -/
def decodeValuesPy : PyValues → Except String PyValues
  | .list xs =>
    match decodeValueList xs with
    | .ok ys => .ok (.list ys)
    | .error e => .error e
  | v => .ok v

/-- Headers.getRawHeaders: look up the encoded lowered name, falling back
to the default; when the name argument was text, pass the result through
_decodeValues. -/
def getRawHeaders (h : Headers) (name : HName) (default : PyValues) :
    Except String PyValues :=
  let values : PyValues :=
    match dictLookup h.rawHeaders (encodeName (lowerName name)) with
    | some vs => .list (vs.map HValue.bytes)
    | Option.none => default
  match name with
  | .text _ => decodeValuesPy values
  | .bytes _ => .ok values

/-- Headers.addRawHeader: encode the name and value, fetch the current
raw list through getRawHeaders with the (bytes) encoded name, append or
create, and store through setRawHeaders. -/
def addRawHeader (h : Headers) (name : HName) (value : HValue) : Headers :=
  let nameB : HName := .bytes (encodeName name)
  let valueB : HValue := .bytes (encodeValue value)
  match getRawHeaders h nameB .none with
  | .ok (.list vs) => setRawHeadersList h nameB (vs ++ [valueB])
  | _ => setRawHeadersList h nameB [valueB]

/-- Headers.getAllRawHeaders: the stored items with each key replaced by
its canonical capitalization. -/
def getAllRawHeaders (h : Headers) : List (ByteStr × List ByteStr) :=
  h.rawHeaders.map fun kv => (canonicalNameCapsB kv.1, kv.2)

/-- Headers.__init__: an empty dict, then one setRawHeaders call per item
of the supplied mapping, with name and values pre-encoded. -/
def headersInit (rawHeaders : List (HName × List HValue)) : Headers :=
  rawHeaders.foldl
    (fun h nv =>
      setRawHeadersList h (.bytes (encodeName nv.1))
        (nv.2.map fun v => HValue.bytes (encodeValue v)))
    ⟨[]⟩

/-- _DictHeaders.__getitem__: the last element of getRawHeaders(key) when
hasHeader(key), else a KeyError; indexing an empty list is an IndexError. -/
def dictHeadersGetItem (h : Headers) (key : HName) : Except String HValue :=
  if hasHeader h key then
    match getRawHeaders h key .none with
    | .ok (.list vs) =>
      match vs.getLast? with
      | some v => .ok v
      | Option.none => .error "IndexError"
    | .ok _ => .error "IndexError"
    | .error e => .error e
  else .error "KeyError"

instance {ε α : Type} [DecidableEq ε] [DecidableEq α] :
    DecidableEq (Except ε α) := fun x y =>
  match x, y with
  | .ok a, .ok b =>
    if h : a = b then .isTrue (by rw [h]) else .isFalse (by simp [h])
  | .error a, .error b =>
    if h : a = b then .isTrue (by rw [h]) else .isFalse (by simp [h])
  | .ok _, .error _ => .isFalse (by simp)
  | .error _, .ok _ => .isFalse (by simp)

/-- The domain restriction under which the total latin-1 model of name
encoding is faithful: every character of a text name is below code point
256 (Python raises UnicodeEncodeError outside it). -/
def latin1ValidName : HName → Prop
  | .bytes _ => True
  | .text s => ∀ c ∈ s.data, c.toNat < 256

/-- Whether a dynamic values argument is a Python list. -/
def isPyList : PyValues → Bool
  | .list _ => true
  | _ => false

/-- The value returned by a get after a set, per the encoding contract:
under a bytes name, the encoded bytes; under a text name, the utf-8
decoding of the encoded bytes (for text input this is the input itself). -/
def roundTripValue : HName → HValue → HValue
  | .bytes _, x => .bytes (encodeValue x)
  | .text _, .bytes b => .text ((utf8Decode b).getD "")
  | .text _, .text s => .text s

/-- The domain restriction for reading values back under a text name:
bytes-typed values must be valid utf-8 (Python raises
UnicodeDecodeError otherwise); text-typed values always decode after
encoding, and under a bytes name nothing is decoded. -/
def valueDecodes : HName → HValue → Prop
  | .bytes _, _ => True
  | .text _, .bytes b => (utf8Decode b).isSome
  | .text _, .text _ => True

instance : ∀ n : HName, Decidable (latin1ValidName n)
  | .bytes _ => .isTrue trivial
  | .text s => inferInstanceAs (Decidable (∀ c ∈ s.data, c.toNat < 256))

instance : ∀ (n : HName) (x : HValue), Decidable (valueDecodes n x)
  | .bytes _, _ => .isTrue trivial
  | .text _, .bytes b =>
    inferInstanceAs (Decidable ((utf8Decode b).isSome = true))
  | .text _, .text _ => .isTrue trivial

/-- Python comparison of two bytes objects: lexicographic on bytes. -/
def cmpBytes : ByteStr → ByteStr → Ordering
  | [], [] => .eq
  | [], _ :: _ => .lt
  | _ :: _, [] => .gt
  | a :: as, b :: bs =>
    match compare a b with
    | .eq => cmpBytes as bs
    | o => o

/-- Python comparison of two lists of bytes objects: lexicographic. -/
def cmpValueList : List ByteStr → List ByteStr → Ordering
  | [], [] => .eq
  | [], _ :: _ => .lt
  | _ :: _, [] => .gt
  | a :: as, b :: bs =>
    match cmpBytes a b with
    | .eq => cmpValueList as bs
    | o => o

/-- Python comparison of two dict items (name, value-list): the pair
comparison, name first. -/
def cmpItem (x y : ByteStr × List ByteStr) : Ordering :=
  match cmpBytes x.1 y.1 with
  | .eq => cmpValueList x.2 y.2
  | o => o

/-- Python comparison of two item lists: lexicographic over cmpItem. -/
def cmpItemList : List (ByteStr × List ByteStr) → List (ByteStr × List ByteStr) →
    Ordering
  | [], [] => .eq
  | [], _ :: _ => .lt
  | _ :: _, [] => .gt
  | a :: as, b :: bs =>
    match cmpItem a b with
    | .eq => cmpItemList as bs
    | o => o

/-- One step of insertion sort under the Python item order. -/
def insertSorted (x : ByteStr × List ByteStr) :
    List (ByteStr × List ByteStr) → List (ByteStr × List ByteStr)
  | [] => [x]
  | y :: ys =>
    if cmpItem x y = .gt then y :: insertSorted x ys else x :: y :: ys

/-- Python sorted on the items of the raw-headers dict. -/
def sortItems (l : List (ByteStr × List ByteStr)) :
    List (ByteStr × List ByteStr) :=
  l.foldr insertSorted []

/-- Headers.__cmp__: cmp of the sorted item lists of the two stores. -/
def headersCmp (h1 h2 : Headers) : Ordering :=
  cmpItemList (sortItems h1.rawHeaders) (sortItems h2.rawHeaders)

/-- Headers equality derived from __cmp__ by the comparable decorator:
true exactly when __cmp__ returns zero. -/
def headersEqB (h1 h2 : Headers) : Bool :=
  headersCmp h1 h2 = .eq

/-- The stores reachable from the empty store (or, through repeated set
calls, from a bulk import) by the mutators.  The setNonempty constructor
restricts set calls to non-empty value lists; this is the amended domain
under which the no-empty-entry invariant holds. -/
inductive ReachableNE : Headers → Prop where
  | empty : ReachableNE ⟨[]⟩
  | setNonempty (h : Headers) (n : HName) (vs : List HValue) :
      ReachableNE h → vs ≠ [] → ReachableNE (setRawHeadersList h n vs)
  | add (h : Headers) (n : HName) (v : HValue) :
      ReachableNE h → ReachableNE (addRawHeader h n v)
  | remove (h : Headers) (n : HName) :
      ReachableNE h → ReachableNE (removeHeader h n)

/-! ### Helper lemmas -/

theorem dictLookup_dictInsert_self (d : List (ByteStr × List ByteStr))
    (k : ByteStr) (v : List ByteStr) :
    dictLookup (dictInsert d k v) k = some v := by
  induction d with
  | nil => simp [dictInsert, dictLookup]
  | cons kv rest ih =>
    obtain ⟨k0, v0⟩ := kv
    by_cases hk : k0 = k
    · simp [dictInsert, dictLookup, hk]
    · simp [dictInsert, dictLookup, hk, ih]

theorem dictLookup_dictInsert_ne (d : List (ByteStr × List ByteStr))
    (k k' : ByteStr) (v : List ByteStr) (hne : k' ≠ k) :
    dictLookup (dictInsert d k v) k' = dictLookup d k' := by
  induction d with
  | nil =>
    simp only [dictInsert, dictLookup]
    rw [if_neg fun h => hne h.symm]
  | cons kv rest ih =>
    obtain ⟨k0, v0⟩ := kv
    by_cases hk : k0 = k
    · subst hk
      simp only [dictInsert, if_pos rfl, dictLookup]
      rw [if_neg fun h => hne h.symm, if_neg fun h => hne h.symm]
    · simp only [dictInsert, if_neg hk, dictLookup]
      by_cases hk' : k0 = k'
      · rw [if_pos hk', if_pos hk']
      · rw [if_neg hk', if_neg hk', ih]

theorem dictLookup_mem (d : List (ByteStr × List ByteStr)) (k : ByteStr)
    (vs : List ByteStr) (h : dictLookup d k = some vs) : (k, vs) ∈ d := by
  induction d with
  | nil => simp [dictLookup] at h
  | cons kv rest ih =>
    obtain ⟨k0, v0⟩ := kv
    by_cases hk : k0 = k
    · subst hk
      simp [dictLookup] at h
      simp [h]
    · simp [dictLookup, hk] at h
      exact List.mem_cons_of_mem _ (ih h)

theorem mem_dictInsert (d : List (ByteStr × List ByteStr))
    (k : ByteStr) (v : List ByteStr) (kv : ByteStr × List ByteStr)
    (h : kv ∈ dictInsert d k v) : kv = (k, v) ∨ kv ∈ d := by
  induction d with
  | nil => simpa [dictInsert] using h
  | cons kv0 rest ih =>
    obtain ⟨k0, v0⟩ := kv0
    by_cases hk : k0 = k
    · subst hk
      simp [dictInsert] at h
      rcases h with h | h
      · exact Or.inl (by simp [h])
      · exact Or.inr (List.mem_cons_of_mem _ h)
    · simp only [dictInsert, if_neg hk, List.mem_cons] at h
      rcases h with h | h
      · exact Or.inr (by simp [h])
      · rcases ih h with h' | h'
        · exact Or.inl h'
        · exact Or.inr (List.mem_cons_of_mem _ h')

theorem mem_dictRemove (d : List (ByteStr × List ByteStr)) (k : ByteStr)
    (kv : ByteStr × List ByteStr) (h : kv ∈ dictRemove d k) : kv ∈ d := by
  induction d with
  | nil =>
    simp [dictRemove] at h
  | cons kv0 rest ih =>
    obtain ⟨k0, v0⟩ := kv0
    by_cases hk : k0 = k
    · subst hk
      simp only [dictRemove, if_pos rfl] at h
      exact List.mem_cons_of_mem _ h
    · simp only [dictRemove, if_neg hk, List.mem_cons] at h
      rcases h with h | h
      · simp [h]
      · exact List.mem_cons_of_mem _ (ih h)

theorem utf8DecodeList_append_encodeChar (c : Char) (l : List Nat) :
    utf8DecodeList (utf8EncodeChar c ++ l) =
      (utf8DecodeList l).map fun cs => c :: cs := by
  have hval : c.toNat < 55296 ∨ (57343 < c.toNat ∧ c.toNat < 1114112) := c.valid
  have hofn : Char.ofNat c.toNat = c := Char.ofNat_toNat c
  rcases Nat.lt_or_ge c.toNat 128 with h1 | h1
  · have he : utf8EncodeChar c = [c.toNat] := by
      unfold utf8EncodeChar
      rw [if_pos h1]
    rw [he]
    show utf8DecodeList (c.toNat :: l) = _
    rw [utf8DecodeList.eq_def]
    simp only [if_pos h1, hofn]
  · rcases Nat.lt_or_ge c.toNat 2048 with h2 | h2
    · have he : utf8EncodeChar c = [192 + c.toNat / 64, 128 + c.toNat % 64] := by
        unfold utf8EncodeChar
        rw [if_neg (by omega), if_pos h2]
      rw [he]
      show utf8DecodeList
        ((192 + c.toNat / 64) :: (128 + c.toNat % 64) :: l) = _
      have hcont : isCont (128 + c.toNat % 64) = true := by
        simp only [isCont, Bool.and_eq_true, decide_eq_true_eq]
        omega
      rw [utf8DecodeList.eq_def]
      simp only [if_neg (show ¬ 192 + c.toNat / 64 < 128 by omega),
        if_neg (show ¬ 192 + c.toNat / 64 < 192 by omega),
        if_pos (show 192 + c.toNat / 64 < 224 by omega), hcont, if_true]
      have harith : (192 + c.toNat / 64 - 192) * 64 + (128 + c.toNat % 64 - 128)
          = c.toNat := by omega
      simp only [harith, if_neg (show ¬ c.toNat < 128 by omega), hofn]
    · rcases Nat.lt_or_ge c.toNat 65536 with h3 | h3
      · have he : utf8EncodeChar c =
            [224 + c.toNat / 4096, 128 + c.toNat / 64 % 64, 128 + c.toNat % 64] := by
          unfold utf8EncodeChar
          rw [if_neg (by omega), if_neg (by omega), if_pos h3]
        rw [he]
        show utf8DecodeList
          ((224 + c.toNat / 4096) :: (128 + c.toNat / 64 % 64)
            :: (128 + c.toNat % 64) :: l) = _
        have hcont1 : isCont (128 + c.toNat / 64 % 64) = true := by
          simp only [isCont, Bool.and_eq_true, decide_eq_true_eq]
          omega
        have hcont2 : isCont (128 + c.toNat % 64) = true := by
          simp only [isCont, Bool.and_eq_true, decide_eq_true_eq]
          omega
        rw [utf8DecodeList.eq_def]
        simp only [if_neg (show ¬ 224 + c.toNat / 4096 < 128 by omega),
          if_neg (show ¬ 224 + c.toNat / 4096 < 192 by omega),
          if_neg (show ¬ 224 + c.toNat / 4096 < 224 by omega),
          if_pos (show 224 + c.toNat / 4096 < 240 by omega),
          hcont1, hcont2, Bool.and_self, if_true]
        have harith : (224 + c.toNat / 4096 - 224) * 4096
            + (128 + c.toNat / 64 % 64 - 128) * 64 + (128 + c.toNat % 64 - 128)
            = c.toNat := by omega
        have hsur : isSurrogate c.toNat = false := by
          simp only [isSurrogate, Bool.and_eq_false_iff, decide_eq_false_iff_not]
          omega
        simp only [harith, if_neg (show ¬ c.toNat < 2048 by omega), hsur,
          Bool.false_eq_true, if_false, hofn]
      · have h4 : c.toNat < 1114112 := by omega
        have he : utf8EncodeChar c =
            [240 + c.toNat / 262144, 128 + c.toNat / 4096 % 64,
             128 + c.toNat / 64 % 64, 128 + c.toNat % 64] := by
          unfold utf8EncodeChar
          rw [if_neg (by omega), if_neg (by omega), if_neg (by omega)]
        rw [he]
        show utf8DecodeList
          ((240 + c.toNat / 262144) :: (128 + c.toNat / 4096 % 64)
            :: (128 + c.toNat / 64 % 64) :: (128 + c.toNat % 64) :: l) = _
        have hcont1 : isCont (128 + c.toNat / 4096 % 64) = true := by
          simp only [isCont, Bool.and_eq_true, decide_eq_true_eq]
          omega
        have hcont2 : isCont (128 + c.toNat / 64 % 64) = true := by
          simp only [isCont, Bool.and_eq_true, decide_eq_true_eq]
          omega
        have hcont3 : isCont (128 + c.toNat % 64) = true := by
          simp only [isCont, Bool.and_eq_true, decide_eq_true_eq]
          omega
        rw [utf8DecodeList.eq_def]
        simp only [if_neg (show ¬ 240 + c.toNat / 262144 < 128 by omega),
          if_neg (show ¬ 240 + c.toNat / 262144 < 192 by omega),
          if_neg (show ¬ 240 + c.toNat / 262144 < 224 by omega),
          if_neg (show ¬ 240 + c.toNat / 262144 < 240 by omega),
          if_pos (show 240 + c.toNat / 262144 < 248 by omega),
          hcont1, hcont2, hcont3, Bool.and_self, if_true]
        have harith : (240 + c.toNat / 262144 - 240) * 262144
            + (128 + c.toNat / 4096 % 64 - 128) * 4096
            + (128 + c.toNat / 64 % 64 - 128) * 64 + (128 + c.toNat % 64 - 128)
            = c.toNat := by omega
        simp only [harith, if_neg (show ¬ c.toNat < 65536 by omega),
          if_neg (show ¬ 1114112 ≤ c.toNat by omega), hofn]

theorem utf8DecodeList_encode_chars (cs : List Char) :
    utf8DecodeList ((cs.map utf8EncodeChar).flatten) = some cs := by
  induction cs with
  | nil => rfl
  | cons c rest ih =>
    simp only [List.map_cons, List.flatten_cons]
    rw [utf8DecodeList_append_encodeChar, ih]
    rfl

theorem utf8Decode_utf8Encode (s : String) :
    utf8Decode (utf8Encode s) = some s := by
  simp [utf8Decode, utf8Encode, utf8DecodeList_encode_chars]

/-- Decoding a stored (all-bytes) value list succeeds elementwise when
every element is valid UTF-8. -/
theorem decodeValueList_bytes (vs : List ByteStr)
    (h : ∀ b ∈ vs, (utf8Decode b).isSome) :
    decodeValueList (vs.map HValue.bytes) =
      .ok (vs.map fun b => HValue.text ((utf8Decode b).getD "")) := by
  induction vs with
  | nil => rfl
  | cons b rest ih =>
    have hb : (utf8Decode b).isSome := h b (List.mem_cons_self b rest)
    obtain ⟨s, hs⟩ := Option.isSome_iff_exists.mp hb
    have ihr := ih fun x hx => h x (List.mem_cons_of_mem _ hx)
    simp only [List.map_cons, decodeValueList, decodeValueItem, hs, ihr]
    simp [hs]

theorem strLower_toNat (c : Char) (h : c.toNat < 256) :
    (asciiLowerChar c).toNat = byteLower c.toNat := by
  unfold asciiLowerChar byteLower
  by_cases hc : 65 ≤ c.toNat ∧ c.toNat ≤ 90
  · rw [if_pos hc, if_pos hc]
    have hv : Nat.isValidChar (c.toNat + 32) := Or.inl (by omega)
    unfold Char.ofNat
    rw [dif_pos hv]
    rfl
  · rw [if_neg hc, if_neg hc]

/-- On latin-1-encodable names, encoding after str.lower agrees with
bytes.lower after encoding. -/
theorem latin1Encode_strLower (s : String) (h : ∀ c ∈ s.data, c.toNat < 256) :
    latin1Encode (strLower s) = bytesLower (latin1Encode s) := by
  simp only [latin1Encode, strLower, bytesLower, List.map_map]
  apply List.map_congr_left
  intro c hc
  exact strLower_toNat c (h c hc)

theorem cmpBytes_eq_iff (a b : ByteStr) : cmpBytes a b = .eq ↔ a = b := by
  induction a generalizing b with
  | nil => cases b <;> simp [cmpBytes]
  | cons x xs ih =>
    cases b with
    | nil => simp [cmpBytes]
    | cons y ys =>
      simp only [cmpBytes]
      cases hc : compare x y with
      | lt =>
        simp only [hc]
        constructor
        · intro habs
          cases habs
        · intro habs
          injection habs with h1 h2
          subst h1
          rw [Nat.compare_eq_eq.mpr rfl] at hc
          cases hc
      | eq =>
        have hxy : x = y := Nat.compare_eq_eq.mp hc
        subst hxy
        simp only [hc, ih]
        simp
      | gt =>
        simp only [hc]
        constructor
        · intro habs
          cases habs
        · intro habs
          injection habs with h1 h2
          subst h1
          rw [Nat.compare_eq_eq.mpr rfl] at hc
          cases hc

theorem cmpValueList_eq_iff (a b : List ByteStr) :
    cmpValueList a b = .eq ↔ a = b := by
  induction a generalizing b with
  | nil => cases b <;> simp [cmpValueList]
  | cons x xs ih =>
    cases b with
    | nil => simp [cmpValueList]
    | cons y ys =>
      simp only [cmpValueList]
      cases hc : cmpBytes x y with
      | lt =>
        simp only [hc]
        constructor
        · intro habs
          cases habs
        · intro habs
          injection habs with h1 h2
          subst h1
          rw [(cmpBytes_eq_iff x x).mpr rfl] at hc
          cases hc
      | eq =>
        have hxy : x = y := (cmpBytes_eq_iff x y).mp hc
        subst hxy
        simp only [hc, ih]
        simp
      | gt =>
        simp only [hc]
        constructor
        · intro habs
          cases habs
        · intro habs
          injection habs with h1 h2
          subst h1
          rw [(cmpBytes_eq_iff x x).mpr rfl] at hc
          cases hc

theorem cmpItem_eq_iff (x y : ByteStr × List ByteStr) :
    cmpItem x y = .eq ↔ x = y := by
  obtain ⟨k1, v1⟩ := x
  obtain ⟨k2, v2⟩ := y
  simp only [cmpItem]
  cases hc : cmpBytes k1 k2 with
  | lt =>
    simp only [hc, Prod.mk.injEq]
    constructor
    · intro habs
      cases habs
    · intro habs
      rw [(cmpBytes_eq_iff k1 k2).mpr habs.1] at hc
      cases hc
  | eq =>
    have hk : k1 = k2 := (cmpBytes_eq_iff k1 k2).mp hc
    subst hk
    simp only [hc, cmpValueList_eq_iff, Prod.mk.injEq, true_and]
  | gt =>
    simp only [hc, Prod.mk.injEq]
    constructor
    · intro habs
      cases habs
    · intro habs
      rw [(cmpBytes_eq_iff k1 k2).mpr habs.1] at hc
      cases hc

theorem cmpItemList_eq_iff (a b : List (ByteStr × List ByteStr)) :
    cmpItemList a b = .eq ↔ a = b := by
  induction a generalizing b with
  | nil => cases b <;> simp [cmpItemList]
  | cons x xs ih =>
    cases b with
    | nil => simp [cmpItemList]
    | cons y ys =>
      simp only [cmpItemList]
      cases hc : cmpItem x y with
      | lt =>
        simp only [hc]
        constructor
        · intro habs
          cases habs
        · intro habs
          injection habs with h1 h2
          subst h1
          rw [(cmpItem_eq_iff x x).mpr rfl] at hc
          cases hc
      | eq =>
        have hxy : x = y := (cmpItem_eq_iff x y).mp hc
        subst hxy
        simp only [hc, ih]
        simp
      | gt =>
        simp only [hc]
        constructor
        · intro habs
          cases habs
        · intro habs
          injection habs with h1 h2
          subst h1
          rw [(cmpItem_eq_iff x x).mpr rfl] at hc
          cases hc

/-- getRawHeaders under a bytes-typed name performs no decoding: it is
the raw lookup at the lowered key, with the default as fallback. -/
theorem getRawHeaders_bytes (h : Headers) (b : ByteStr) (d : PyValues) :
    getRawHeaders h (.bytes b) d =
      .ok (match dictLookup h.rawHeaders (bytesLower b) with
           | some vs => .list (vs.map HValue.bytes)
           | Option.none => d) := rfl

/-- addRawHeader rewritten as the set call it performs: the previously
stored raw list (empty when absent) with the encoded value appended. -/
theorem addRawHeader_eq (h : Headers) (n : HName) (v : HValue) :
    addRawHeader h n v =
      setRawHeadersList h (.bytes (encodeName n))
        (((dictLookup h.rawHeaders (bytesLower (encodeName n))).getD []).map
            HValue.bytes ++ [.bytes (encodeValue v)]) := by
  simp only [addRawHeader]
  rw [getRawHeaders_bytes]
  cases hd : dictLookup h.rawHeaders (bytesLower (encodeName n)) with
  | none => simp [hd]
  | some vs => simp [hd]

theorem byteUpper_not_lower (x : Nat) : ¬(97 ≤ byteUpper x ∧ byteUpper x ≤ 122) := by
  unfold byteUpper
  split <;> omega

theorem byteUpper_idem (x : Nat) : byteUpper (byteUpper x) = byteUpper x := by
  unfold byteUpper
  split_ifs <;> omega

theorem byteLower_idem (x : Nat) : byteLower (byteLower x) = byteLower x := by
  unfold byteLower
  split_ifs <;> omega

theorem byteLower_byteUpper (x : Nat) : byteLower (byteUpper x) = byteLower x := by
  unfold byteUpper byteLower
  split_ifs <;> omega

theorem splitOnDash_ne_nil (n : ByteStr) : splitOnDash n ≠ [] := by
  induction n with
  | nil => simp [splitOnDash]
  | cons b rest ih =>
    by_cases hb : b = 45
    · simp [splitOnDash, hb]
    · simp only [splitOnDash, if_neg hb]
      cases hsp : splitOnDash rest with
      | nil => exact absurd hsp ih
      | cons w ws => simp

theorem splitOnDash_no_dash (n : ByteStr) : ∀ w ∈ splitOnDash n, 45 ∉ w := by
  induction n with
  | nil =>
    intro w hw
    simp only [splitOnDash, List.mem_singleton] at hw
    subst hw
    simp
  | cons b rest ih =>
    intro w hw
    by_cases hb : b = 45
    · simp only [splitOnDash, if_pos hb, List.mem_cons] at hw
      rcases hw with rfl | hw
      · simp
      · exact ih w hw
    · simp only [splitOnDash, if_neg hb] at hw
      cases hsp : splitOnDash rest with
      | nil => exact absurd hsp (splitOnDash_ne_nil rest)
      | cons w0 ws =>
        rw [hsp] at hw
        simp only [List.mem_cons] at hw
        rcases hw with rfl | hw
        · intro hmem
          simp only [List.mem_cons] at hmem
          rcases hmem with h45 | h45
          · exact hb h45.symm
          · exact ih w0 (by rw [hsp]; exact List.mem_cons_self _ _) h45
        · exact ih w (by rw [hsp]; exact List.mem_cons_of_mem _ hw)

theorem joinDash_splitOnDash (n : ByteStr) : joinDash (splitOnDash n) = n := by
  induction n with
  | nil => rfl
  | cons b rest ih =>
    by_cases hb : b = 45
    · subst hb
      simp only [splitOnDash, if_pos rfl]
      cases hsp : splitOnDash rest with
      | nil => exact absurd hsp (splitOnDash_ne_nil rest)
      | cons w ws =>
        show 45 :: joinDash (w :: ws) = 45 :: rest
        rw [← hsp, ih]
    · simp only [splitOnDash, if_neg hb]
      cases hsp : splitOnDash rest with
      | nil => exact absurd hsp (splitOnDash_ne_nil rest)
      | cons w ws =>
        cases ws with
        | nil =>
          show b :: w = b :: rest
          rw [hsp] at ih
          exact congrArg (b :: ·) ih
        | cons w2 ws2 =>
          show (b :: w) ++ 45 :: joinDash (w2 :: ws2) = b :: rest
          rw [hsp] at ih
          rw [← ih]
          rfl

theorem splitOnDash_no45 (w : ByteStr) (h : 45 ∉ w) : splitOnDash w = [w] := by
  induction w with
  | nil => rfl
  | cons b rest ih =>
    have hb : b ≠ 45 := fun hbe => h (by simp [hbe])
    simp only [splitOnDash, if_neg hb]
    rw [ih fun hh => h (List.mem_cons_of_mem _ hh)]

theorem splitOnDash_append (w r : ByteStr) (h : 45 ∉ w) :
    splitOnDash (w ++ 45 :: r) = w :: splitOnDash r := by
  induction w with
  | nil => simp [splitOnDash]
  | cons b rest ih =>
    have hb : b ≠ 45 := fun hbe => h (by simp [hbe])
    show splitOnDash (b :: (rest ++ 45 :: r)) = (b :: rest) :: splitOnDash r
    simp only [splitOnDash, if_neg hb]
    rw [ih fun hh => h (List.mem_cons_of_mem _ hh)]

theorem splitOnDash_joinDash (ws : List ByteStr) (hne : ws ≠ [])
    (hfree : ∀ w ∈ ws, 45 ∉ w) : splitOnDash (joinDash ws) = ws := by
  induction ws with
  | nil => exact absurd rfl hne
  | cons w rest ih =>
    cases rest with
    | nil =>
      show splitOnDash w = [w]
      exact splitOnDash_no45 w (hfree w (List.mem_cons_self _ _))
    | cons w2 ws2 =>
      show splitOnDash (w ++ 45 :: joinDash (w2 :: ws2)) = w :: w2 :: ws2
      rw [splitOnDash_append w _ (hfree w (List.mem_cons_self _ _)),
        ih (by simp) fun x hx => hfree x (List.mem_cons_of_mem _ hx)]

theorem byteUpper_ne_dash (x : Nat) (h : x ≠ 45) : byteUpper x ≠ 45 := by
  unfold byteUpper
  split <;> omega

theorem byteLower_ne_dash (x : Nat) (h : x ≠ 45) : byteLower x ≠ 45 := by
  unfold byteLower
  split <;> omega

theorem bytesCapitalize_no_dash (w : ByteStr) (h : 45 ∉ w) :
    45 ∉ bytesCapitalize w := by
  cases w with
  | nil => simp [bytesCapitalize]
  | cons c rest =>
    have hc : c ≠ 45 := fun hce => h (by simp [hce])
    simp only [bytesCapitalize, List.mem_cons, not_or]
    constructor
    · exact fun hh => byteUpper_ne_dash c hc hh.symm
    · intro hmem
      obtain ⟨x, hx, hxe⟩ := List.mem_map.mp hmem
      have hxne : x ≠ 45 := fun hh =>
        h (List.mem_cons_of_mem _ (hh ▸ hx))
      exact byteLower_ne_dash x hxne hxe

theorem bytesCapitalize_idem (w : ByteStr) :
    bytesCapitalize (bytesCapitalize w) = bytesCapitalize w := by
  cases w with
  | nil => rfl
  | cons c rest =>
    show byteUpper (byteUpper c) :: (rest.map byteLower).map byteLower
      = byteUpper c :: rest.map byteLower
    rw [byteUpper_idem, List.map_map]
    congr 1
    apply List.map_congr_left
    intro x _
    exact byteLower_idem x

theorem dashCapitalize_head_not_lower (n : ByteStr) (x : Nat) (t : ByteStr)
    (h : dashCapitalize n = x :: t) : ¬(97 ≤ x ∧ x ≤ 122) := by
  unfold dashCapitalize at h
  cases hsp : splitOnDash n with
  | nil => exact absurd hsp (splitOnDash_ne_nil n)
  | cons w ws =>
    rw [hsp] at h
    simp only [List.map_cons] at h
    cases ws with
    | nil =>
      have h' : bytesCapitalize w = x :: t := h
      cases w with
      | nil => cases h'
      | cons c r =>
        have h2 : byteUpper c :: r.map byteLower = x :: t := h'
        injection h2 with h1 _
        rw [← h1]
        exact byteUpper_not_lower c
    | cons w2 ws2 =>
      have h' : bytesCapitalize w ++ 45 :: joinDash (List.map bytesCapitalize (w2 :: ws2))
          = x :: t := h
      cases w with
      | nil =>
        have h2 : (45 : Nat) :: joinDash (List.map bytesCapitalize (w2 :: ws2))
            = x :: t := h'
        injection h2 with h1 _
        omega
      | cons c r =>
        have h2 : byteUpper c
            :: (r.map byteLower ++ 45 :: joinDash (List.map bytesCapitalize (w2 :: ws2)))
            = x :: t := h'
        injection h2 with h1 _
        rw [← h1]
        exact byteUpper_not_lower c

theorem caseMappingLookup_none (tbl : List (ByteStr × ByteStr)) (key : ByteStr)
    (h : ∀ kv ∈ tbl, kv.1 ≠ key) : caseMappingLookup tbl key = Option.none := by
  induction tbl with
  | nil => rfl
  | cons kv rest ih =>
    obtain ⟨k, v⟩ := kv
    simp only [caseMappingLookup]
    rw [if_neg (h (k, v) (List.mem_cons_self _ _))]
    exact ih fun kv2 hkv2 => h kv2 (List.mem_cons_of_mem _ hkv2)

theorem caseMappingLookup_mem (tbl : List (ByteStr × ByteStr)) (key v : ByteStr)
    (h : caseMappingLookup tbl key = some v) : (key, v) ∈ tbl := by
  induction tbl with
  | nil => simp [caseMappingLookup] at h
  | cons kv rest ih =>
    obtain ⟨k0, v0⟩ := kv
    by_cases hk : k0 = key
    · subst hk
      simp [caseMappingLookup] at h
      simp [h]
    · simp [caseMappingLookup, hk] at h
      exact List.mem_cons_of_mem _ (ih h)

/-- Every irregular-table key is non-empty, starts with a lowercase ASCII
letter, and both key and canonical value lower back to the key. -/
theorem caseMappings_facts : ∀ kv ∈ caseMappings,
    kv.1 ≠ [] ∧ 97 ≤ kv.1.headD 0 ∧ kv.1.headD 0 ≤ 122
    ∧ bytesLower kv.2 = kv.1 ∧ bytesLower kv.1 = kv.1 := by decide

theorem caseMappingLookup_dashCapitalize (n : ByteStr) :
    caseMappingLookup caseMappings (dashCapitalize n) = Option.none := by
  apply caseMappingLookup_none
  intro kv hkv heq
  have hk := caseMappings_facts kv hkv
  cases hd : dashCapitalize n with
  | nil =>
    rw [hd] at heq
    exact hk.1 heq
  | cons x t =>
    rw [hd] at heq
    have hx := dashCapitalize_head_not_lower n x t hd
    rw [heq] at hk
    simp only [List.headD_cons] at hk
    exact hx ⟨hk.2.1, hk.2.2.1⟩

theorem dashCapitalize_idem (n : ByteStr) :
    dashCapitalize (dashCapitalize n) = dashCapitalize n := by
  show joinDash ((splitOnDash (dashCapitalize n)).map bytesCapitalize)
    = dashCapitalize n
  unfold dashCapitalize
  rw [splitOnDash_joinDash]
  · rw [List.map_map]
    congr 1
    apply List.map_congr_left
    intro w _
    exact bytesCapitalize_idem w
  · simp [splitOnDash_ne_nil]
  · intro w hw
    obtain ⟨w0, hw0, rfl⟩ := List.mem_map.mp hw
    exact bytesCapitalize_no_dash w0 (splitOnDash_no_dash n w0 hw0)

theorem bytesLower_joinDash (ws : List ByteStr) :
    bytesLower (joinDash ws) = joinDash (ws.map bytesLower) := by
  induction ws with
  | nil => rfl
  | cons w rest ih =>
    cases rest with
    | nil => rfl
    | cons w2 ws2 =>
      show bytesLower (w ++ 45 :: joinDash (w2 :: ws2))
        = bytesLower w ++ 45 :: joinDash (List.map bytesLower (w2 :: ws2))
      simp only [bytesLower, List.map_append, List.map_cons] at ih ⊢
      rw [show byteLower 45 = 45 from rfl, ih]

theorem bytesLower_bytesCapitalize (w : ByteStr) :
    bytesLower (bytesCapitalize w) = bytesLower w := by
  cases w with
  | nil => rfl
  | cons c r =>
    show byteLower (byteUpper c) :: (r.map byteLower).map byteLower
      = byteLower c :: r.map byteLower
    rw [byteLower_byteUpper, List.map_map]
    congr 1
    apply List.map_congr_left
    intro x _
    exact byteLower_idem x

theorem bytesLower_dashCapitalize (n : ByteStr) :
    bytesLower (dashCapitalize n) = bytesLower n := by
  unfold dashCapitalize
  rw [bytesLower_joinDash, List.map_map]
  have hm : List.map (bytesLower ∘ bytesCapitalize) (splitOnDash n)
      = List.map bytesLower (splitOnDash n) :=
    List.map_congr_left fun w _ => bytesLower_bytesCapitalize w
  rw [hm, ← bytesLower_joinDash, joinDash_splitOnDash]

/-! ### Claim theorems -/

/-- Claim C2: addRawHeader appends the encoded value at the end of the
existing raw sequence for the name, creating a one-element sequence when
absent; in particular two adds on the same name accumulate in call order,
not sorted and not deduplicated. -/
theorem addRawHeader_appends (h : Headers) (n : HName) (v : HValue) :
    dictLookup (addRawHeader h n v).rawHeaders (bytesLower (encodeName n)) =
      some ((dictLookup h.rawHeaders (bytesLower (encodeName n))).getD []
        ++ [encodeValue v])
    ∧ getRawHeaders
        (addRawHeader (addRawHeader ⟨[]⟩ (.text "x") (.text "a"))
          (.text "x") (.text "b")) (.text "x") .none
      = .ok (.list [.text "a", .text "b"]) := by
  refine ⟨?_, by decide⟩
  rw [addRawHeader_eq]
  show dictLookup (dictInsert h.rawHeaders (bytesLower (encodeName n)) _) _ = _
  rw [dictLookup_dictInsert_self]
  congr 1
  rw [List.map_append, List.map_map]
  show _ ++ [encodeValue v] = _ ++ [encodeValue v]
  congr 1
  show List.map id _ = _
  exact List.map_id _

/-- Claim C5: setRawHeaders fails with a TypeError exactly on a non-list
values argument (for example a single string), and never coerces: on a
list it stores it as given. -/
theorem setRawHeaders_typeError (h : Headers) (n : HName) (v : PyValues) :
    (isPyList v = false → setRawHeaders h n v = .error "TypeError")
    ∧ (∀ xs, v = .list xs → setRawHeaders h n v = .ok (setRawHeadersList h n xs))
    ∧ setRawHeaders ⟨[]⟩ (.text "x") (.str "not-a-list") = .error "TypeError" := by
  refine ⟨?_, ?_, by decide⟩
  · intro hv
    cases v with
    | list xs => simp [isPyList] at hv
    | str s => rfl
    | bytes b => rfl
    | none => rfl
    | int k => rfl
  · intro xs hxs
    subst hxs
    rfl

/-- Witness for claim C5 at a concrete non-list and a concrete list. -/
theorem setRawHeaders_typeError_witness :
    setRawHeaders ⟨[]⟩ (.bytes (bs "x")) (.bytes (bs "oops"))
      = .error "TypeError"
    ∧ setRawHeaders ⟨[]⟩ (.bytes (bs "x")) (.list [.bytes (bs "a")])
      = .ok (setRawHeadersList ⟨[]⟩ (.bytes (bs "x")) [.bytes (bs "a")]) :=
  ⟨(setRawHeaders_typeError ⟨[]⟩ (.bytes (bs "x")) (.bytes (bs "oops"))).1
      (by decide),
   (setRawHeaders_typeError ⟨[]⟩ (.bytes (bs "x"))
      (.list [.bytes (bs "a")])).2.1 [.bytes (bs "a")] rfl⟩

/-- Claim C6: two stores compare equal exactly when their sorted item
lists agree, so equality is insensitive to the insertion order of
distinct entries (same two headers added in opposite order compare
equal) but sensitive to the order of values inside one sequence. -/
theorem headers_eq_iff_sorted (h1 h2 : Headers) :
    (headersEqB h1 h2 = true ↔ sortItems h1.rawHeaders = sortItems h2.rawHeaders)
    ∧ headersEqB
        (addRawHeader (addRawHeader ⟨[]⟩ (.bytes (bs "x")) (.bytes (bs "a")))
          (.bytes (bs "y")) (.bytes (bs "c")))
        (addRawHeader (addRawHeader ⟨[]⟩ (.bytes (bs "y")) (.bytes (bs "c")))
          (.bytes (bs "x")) (.bytes (bs "a"))) = true
    ∧ headersEqB
        (setRawHeadersList ⟨[]⟩ (.bytes (bs "x"))
          [.bytes (bs "a"), .bytes (bs "b")])
        (setRawHeadersList ⟨[]⟩ (.bytes (bs "x"))
          [.bytes (bs "b"), .bytes (bs "a")]) = false := by
  refine ⟨?_, by decide, by decide⟩
  simp only [headersEqB, headersCmp, decide_eq_true_eq]
  exact cmpItemList_eq_iff _ _

/-- Claim C7: hasHeader answers identically on names that agree after
lower-casing, for bytes-typed names, for text-typed names, and across the
two typings on ASCII names; in particular the three capitalizations of
content-type agree on every store. -/
theorem hasHeader_case_insensitive (h : Headers) :
    (∀ b1 b2 : ByteStr, bytesLower b1 = bytesLower b2 →
      hasHeader h (.bytes b1) = hasHeader h (.bytes b2))
    ∧ (∀ s1 s2 : String, strLower s1 = strLower s2 →
      hasHeader h (.text s1) = hasHeader h (.text s2))
    ∧ (∀ s : String, (∀ c ∈ s.data, c.toNat < 128) →
      hasHeader h (.text s) = hasHeader h (.bytes (latin1Encode s)))
    ∧ hasHeader h (.text "Content-Type") = hasHeader h (.text "content-type")
    ∧ hasHeader h (.text "CONTENT-TYPE") = hasHeader h (.text "content-type") := by
  have hbytes : ∀ b1 b2 : ByteStr, bytesLower b1 = bytesLower b2 →
      hasHeader h (.bytes b1) = hasHeader h (.bytes b2) := by
    intro b1 b2 hb
    show (dictLookup h.rawHeaders (bytesLower b1)).isSome
      = (dictLookup h.rawHeaders (bytesLower b2)).isSome
    rw [hb]
  have htext : ∀ s1 s2 : String, strLower s1 = strLower s2 →
      hasHeader h (.text s1) = hasHeader h (.text s2) := by
    intro s1 s2 hs
    show (dictLookup h.rawHeaders (latin1Encode (strLower s1))).isSome
      = (dictLookup h.rawHeaders (latin1Encode (strLower s2))).isSome
    rw [hs]
  refine ⟨hbytes, htext, ?_, ?_, ?_⟩
  · intro s hs
    show (dictLookup h.rawHeaders (latin1Encode (strLower s))).isSome
      = (dictLookup h.rawHeaders (bytesLower (latin1Encode s))).isSome
    rw [latin1Encode_strLower s fun c hc => Nat.lt_trans (hs c hc) (by omega)]
  · exact htext "Content-Type" "content-type" (by decide)
  · exact htext "CONTENT-TYPE" "content-type" (by decide)

/-- Witness for claim C7 at concrete names and a concrete store. -/
theorem hasHeader_case_insensitive_witness :
    hasHeader ⟨[(bs "content-type", [bs "a"])]⟩ (.bytes (bs "Content-Type"))
      = hasHeader ⟨[(bs "content-type", [bs "a"])]⟩ (.bytes (bs "CONTENT-TYPE"))
    ∧ hasHeader ⟨[(bs "content-type", [bs "a"])]⟩ (.text "Content-Type")
      = hasHeader ⟨[(bs "content-type", [bs "a"])]⟩ (.text "content-type")
    ∧ hasHeader ⟨[(bs "content-type", [bs "a"])]⟩ (.text "Content-Type")
      = hasHeader ⟨[(bs "content-type", [bs "a"])]⟩
          (.bytes (latin1Encode "Content-Type")) :=
  ⟨(hasHeader_case_insensitive ⟨[(bs "content-type", [bs "a"])]⟩).1
      (bs "Content-Type") (bs "CONTENT-TYPE") (by decide),
   (hasHeader_case_insensitive ⟨[(bs "content-type", [bs "a"])]⟩).2.1
      "Content-Type" "content-type" (by decide),
   (hasHeader_case_insensitive ⟨[(bs "content-type", [bs "a"])]⟩).2.2.1
      "Content-Type" (by decide)⟩

/-- Claim C1: setRawHeaders followed by getRawHeaders on the same name
returns the value list after the encoding round trip, for bytes- and
text-typed names and elements, decoded back to mirror the name
argument's type. -/
theorem setRawHeaders_getRawHeaders_roundtrip (h : Headers) (n : HName)
    (v : List HValue) (hn : latin1ValidName n)
    (hv : ∀ x ∈ v, valueDecodes n x) :
    getRawHeaders (setRawHeadersList h n v) n .none =
      .ok (.list (v.map (roundTripValue n))) := by
  have hkey : dictLookup (setRawHeadersList h n v).rawHeaders
      (encodeName (lowerName n)) = some (v.map encodeValue) :=
    dictLookup_dictInsert_self h.rawHeaders _ _
  cases n with
  | bytes b =>
    rw [getRawHeaders_bytes, show bytesLower b
      = encodeName (lowerName (HName.bytes b)) from rfl, hkey]
    show Except.ok (PyValues.list (List.map HValue.bytes (List.map encodeValue v)))
      = _
    rw [List.map_map]
    rfl
  | text s =>
    have hall : ∀ b ∈ v.map encodeValue, (utf8Decode b).isSome := by
      intro b hb
      obtain ⟨x, hx, rfl⟩ := List.mem_map.mp hb
      cases x with
      | bytes bb => exact hv _ hx
      | text t =>
        rw [show encodeValue (HValue.text t) = utf8Encode t from rfl,
          utf8Decode_utf8Encode]
        rfl
    simp only [getRawHeaders, hkey]
    simp only [decodeValuesPy]
    rw [decodeValueList_bytes _ hall]
    rw [List.map_map]
    have hmaps : List.map
        ((fun b => HValue.text ((utf8Decode b).getD "")) ∘ encodeValue) v
        = List.map (roundTripValue (.text s)) v := by
      apply List.map_congr_left
      intro x _
      cases x with
      | bytes bb => rfl
      | text t =>
        show HValue.text ((utf8Decode (utf8Encode t)).getD "") = _
        rw [utf8Decode_utf8Encode]
        rfl
    rw [hmaps]

/-- Witness for claim C1: a text name with one text and one bytes value
comes back as text after the round trip. -/
theorem setRawHeaders_getRawHeaders_roundtrip_witness :
    getRawHeaders
        (setRawHeadersList ⟨[]⟩ (.text "x") [.text "a", .bytes [98]])
        (.text "x") .none
      = .ok (.list [.text "a", .text "b"]) := by
  rw [setRawHeaders_getRawHeaders_roundtrip ⟨[]⟩ (.text "x")
    [.text "a", .bytes [98]] (by decide) (by decide)]
  decide

/-- Claim C3: the single-value view's read returns the last element of
the stored sequence at the case-insensitively matched key (decoded under
a text key), and raises KeyError when the header is absent. -/
theorem dictHeaders_getItem_last (h : Headers) :
    (∀ b : ByteStr, ∀ vs : List ByteStr,
      dictLookup h.rawHeaders (bytesLower b) = some vs →
      ∀ hne : vs ≠ [],
      dictHeadersGetItem h (.bytes b) = .ok (.bytes (vs.getLast hne)))
    ∧ (∀ s : String, ∀ vs : List ByteStr,
      dictLookup h.rawHeaders (latin1Encode (strLower s)) = some vs →
      ∀ hne : vs ≠ [],
      (∀ x ∈ vs, (utf8Decode x).isSome) →
      dictHeadersGetItem h (.text s)
        = .ok (.text ((utf8Decode (vs.getLast hne)).getD "")))
    ∧ (∀ key : HName,
      dictLookup h.rawHeaders (encodeName (lowerName key)) = Option.none →
      dictHeadersGetItem h key = .error "KeyError")
    ∧ dictHeadersGetItem
        (addRawHeader (addRawHeader ⟨[]⟩ (.text "x") (.text "a"))
          (.text "x") (.text "b")) (.text "X")
      = .ok (.text "b") := by
  refine ⟨?_, ?_, ?_, by decide⟩
  · intro b vs hd hne
    have hh : hasHeader h (.bytes b) = true := by
      show (dictLookup h.rawHeaders (bytesLower b)).isSome = true
      rw [hd]
      rfl
    simp only [dictHeadersGetItem, hh, if_true]
    rw [getRawHeaders_bytes, hd]
    simp only [List.getLast?_map]
    rw [List.getLast?_eq_getLast_of_ne_nil hne]
    rfl
  · intro s vs hd hne hdec
    have hd' : dictLookup h.rawHeaders (encodeName (lowerName (.text s)))
        = some vs := hd
    have hh : hasHeader h (.text s) = true := by
      show (dictLookup h.rawHeaders (latin1Encode (strLower s))).isSome = true
      rw [hd]
      rfl
    simp only [dictHeadersGetItem, hh, if_true]
    simp only [getRawHeaders, hd, hd']
    simp only [decodeValuesPy]
    rw [decodeValueList_bytes _ hdec]
    simp only [List.getLast?_map]
    rw [List.getLast?_eq_getLast_of_ne_nil hne]
    rfl
  · intro key hd
    have hh : hasHeader h key = false := by
      show (dictLookup h.rawHeaders (encodeName (lowerName key))).isSome = false
      rw [hd]
      rfl
    simp [dictHeadersGetItem, hh]

/-- Witness for claim C3: last-value read at a mixed-case key, and
KeyError on an absent key. -/
theorem dictHeaders_getItem_last_witness :
    dictHeadersGetItem ⟨[(bs "x", [bs "a", bs "b"])]⟩ (.bytes (bs "X"))
      = .ok (.bytes (([bs "a", bs "b"] : List ByteStr).getLast (by decide)))
    ∧ dictHeadersGetItem ⟨[(bs "x", [bs "a", bs "b"])]⟩ (.bytes (bs "y"))
      = .error "KeyError" :=
  ⟨(dictHeaders_getItem_last ⟨[(bs "x", [bs "a", bs "b"])]⟩).1
      (bs "X") [bs "a", bs "b"] (by decide) (by decide),
   (dictHeaders_getItem_last ⟨[(bs "x", [bs "a", bs "b"])]⟩).2.2.1
      (.bytes (bs "y")) (by decide)⟩

/-- Counterexample to claim C9 as stated: on an absent header with a
text-typed name and a list default, getRawHeaders does not return the
default unchanged; the default's elements are utf-8 decoded. -/
theorem getRawHeaders_default_counterexample :
    getRawHeaders ⟨[]⟩ (.text "x") (.list [.bytes [97]])
      = .ok (.list [.text "a"])
    ∧ getRawHeaders ⟨[]⟩ (.text "x") (.list [.bytes [97]])
      ≠ .ok (.list [.bytes [97]]) := by
  exact ⟨by decide, by decide⟩

/-- Claim C9 (amended): on an absent name getRawHeaders returns the
default unchanged when the name is bytes-typed or the default is not a
list (a text-typed name decodes a list default elementwise, as the
counterexample shows); on a present name it returns the stored sequence,
decoded exactly when the name is text-typed. -/
theorem getRawHeaders_default (h : Headers) :
    (∀ b : ByteStr, ∀ d : PyValues,
      dictLookup h.rawHeaders (bytesLower b) = Option.none →
      getRawHeaders h (.bytes b) d = .ok d)
    ∧ (∀ s : String, ∀ d : PyValues,
      dictLookup h.rawHeaders (latin1Encode (strLower s)) = Option.none →
      isPyList d = false →
      getRawHeaders h (.text s) d = .ok d)
    ∧ (∀ b : ByteStr, ∀ d : PyValues, ∀ vs : List ByteStr,
      dictLookup h.rawHeaders (bytesLower b) = some vs →
      getRawHeaders h (.bytes b) d = .ok (.list (vs.map HValue.bytes)))
    ∧ (∀ s : String, ∀ d : PyValues, ∀ vs : List ByteStr,
      dictLookup h.rawHeaders (latin1Encode (strLower s)) = some vs →
      (∀ x ∈ vs, (utf8Decode x).isSome) →
      getRawHeaders h (.text s) d
        = .ok (.list (vs.map fun b => HValue.text ((utf8Decode b).getD "")))) := by
  refine ⟨?_, ?_, ?_, ?_⟩
  · intro b d hd
    rw [getRawHeaders_bytes, hd]
  · intro s d hd hlist
    have hd' : dictLookup h.rawHeaders (encodeName (lowerName (.text s)))
        = Option.none := hd
    simp only [getRawHeaders, hd, hd']
    cases d with
    | list xs => simp [isPyList] at hlist
    | str t => rfl
    | bytes bb => rfl
    | none => rfl
    | int k => rfl
  · intro b d vs hd
    rw [getRawHeaders_bytes, hd]
  · intro s d vs hd hdec
    have hd' : dictLookup h.rawHeaders (encodeName (lowerName (.text s)))
        = some vs := hd
    simp only [getRawHeaders, hd, hd']
    simp only [decodeValuesPy]
    rw [decodeValueList_bytes _ hdec]

/-- Witness for amended claim C9 at concrete stores, names and defaults. -/
theorem getRawHeaders_default_witness :
    getRawHeaders ⟨[]⟩ (.bytes (bs "x")) (.list [.bytes [97]])
      = .ok (.list [.bytes [97]])
    ∧ getRawHeaders ⟨[]⟩ (.text "x") (.str "fallback") = .ok (.str "fallback")
    ∧ getRawHeaders ⟨[(bs "x", [bs "a"])]⟩ (.bytes (bs "x")) .none
      = .ok (.list [.bytes (bs "a")])
    ∧ getRawHeaders ⟨[(bs "x", [bs "a"])]⟩ (.text "x") .none
      = .ok (.list ([bs "a"].map fun b => HValue.text ((utf8Decode b).getD ""))) :=
  ⟨(getRawHeaders_default ⟨[]⟩).1 (bs "x") (.list [.bytes [97]]) (by decide),
   (getRawHeaders_default ⟨[]⟩).2.1 "x" (.str "fallback") (by decide) (by decide),
   (getRawHeaders_default ⟨[(bs "x", [bs "a"])]⟩).2.2.1 (bs "x") .none
      [bs "a"] (by decide),
   (getRawHeaders_default ⟨[(bs "x", [bs "a"])]⟩).2.2.2 "x" .none
      [bs "a"] (by decide) (by decide)⟩

/-- Claim C4: the canonical display capitalization is the irregular
table's spelling verbatim on a table hit, and otherwise the name split on
the dash with each segment capitalized (first byte upper, rest lower) and
rejoined; with the spec's concrete examples, also as produced by
getAllRawHeaders. -/
theorem canonicalNameCaps_spec (n : ByteStr) :
    (∀ c : ByteStr, caseMappingLookup caseMappings n = some c →
      canonicalNameCapsB n = c)
    ∧ (caseMappingLookup caseMappings n = Option.none →
      canonicalNameCapsB n = joinDash ((splitOnDash n).map bytesCapitalize))
    ∧ canonicalNameCapsB (bs "content-type") = bs "Content-Type"
    ∧ canonicalNameCapsB (bs "x-forwarded-for") = bs "X-Forwarded-For"
    ∧ canonicalNameCapsB (bs "dnt") = bs "DNT"
    ∧ getAllRawHeaders ⟨[(bs "content-type", [bs "a"])]⟩
      = [(bs "Content-Type", [bs "a"])] := by
  refine ⟨?_, ?_, by decide, by decide, by decide, by decide⟩
  · intro c hc
    unfold canonicalNameCapsB
    rw [hc]
  · intro hn
    unfold canonicalNameCapsB
    rw [hn]
    rfl

/-- Witness for claim C4 at a table name and a generic name. -/
theorem canonicalNameCaps_spec_witness :
    canonicalNameCapsB (bs "etag") = bs "ETag"
    ∧ canonicalNameCapsB (bs "x-forwarded-for")
      = joinDash ((splitOnDash (bs "x-forwarded-for")).map bytesCapitalize) :=
  ⟨(canonicalNameCaps_spec (bs "etag")).1 (bs "ETag") (by decide),
   (canonicalNameCaps_spec (bs "x-forwarded-for")).2.1 (by decide)⟩

/-- Counterexample to claim C8 as stated: re-canonicalizing the canonical
form of a table name does not yield the same string; DNT becomes Dnt
under the generic rule. -/
theorem canonicalNameCaps_not_idempotent :
    canonicalNameCapsB (canonicalNameCapsB (bs "dnt")) = bs "Dnt"
    ∧ canonicalNameCapsB (canonicalNameCapsB (bs "dnt"))
      ≠ canonicalNameCapsB (bs "dnt") :=
  ⟨by decide, by decide⟩

/-- Claim C8 (amended): the canonicalization is idempotent on every name
outside the irregular table (a table name's canonical form instead
re-canonicalizes under the generic rule, as the counterexample shows),
and it never changes the lowercase storage key. -/
theorem canonicalNameCaps_idempotent (n : ByteStr) :
    (caseMappingLookup caseMappings n = Option.none →
      canonicalNameCapsB (canonicalNameCapsB n) = canonicalNameCapsB n)
    ∧ bytesLower (canonicalNameCapsB n) = bytesLower n := by
  constructor
  · intro hn
    have h1 : canonicalNameCapsB n = dashCapitalize n := by
      unfold canonicalNameCapsB
      rw [hn]
    have h2 : canonicalNameCapsB (dashCapitalize n)
        = dashCapitalize (dashCapitalize n) := by
      unfold canonicalNameCapsB
      rw [caseMappingLookup_dashCapitalize]
    rw [h1, h2, dashCapitalize_idem]
  · cases hl : caseMappingLookup caseMappings n with
    | none =>
      have h1 : canonicalNameCapsB n = dashCapitalize n := by
        unfold canonicalNameCapsB
        rw [hl]
      rw [h1, bytesLower_dashCapitalize]
    | some c =>
      have h1 : canonicalNameCapsB n = c := by
        unfold canonicalNameCapsB
        rw [hl]
      have hmem := caseMappingLookup_mem _ _ _ hl
      have hfacts := caseMappings_facts _ hmem
      rw [h1]
      show bytesLower c = bytesLower n
      rw [hfacts.2.2.2.1, hfacts.2.2.2.2]

/-- Witness for amended claim C8 at concrete names. -/
theorem canonicalNameCaps_idempotent_witness :
    canonicalNameCapsB (canonicalNameCapsB (bs "x-forwarded-for"))
      = canonicalNameCapsB (bs "x-forwarded-for")
    ∧ bytesLower (canonicalNameCapsB (bs "dnt")) = bytesLower (bs "dnt") :=
  ⟨(canonicalNameCaps_idempotent (bs "x-forwarded-for")).1 (by decide),
   (canonicalNameCaps_idempotent (bs "dnt")).2⟩

/-- Counterexample to claim C10 as stated: setRawHeaders accepts the
empty list and inserts an entry whose value sequence is empty; the key is
then present with an empty sequence. -/
theorem setRawHeaders_empty_counterexample :
    setRawHeaders ⟨[]⟩ (.bytes (bs "x")) (.list []) = .ok ⟨[(bs "x", [])]⟩
    ∧ hasHeader ⟨[(bs "x", [])]⟩ (.bytes (bs "x")) = true
    ∧ getRawHeaders ⟨[(bs "x", [])]⟩ (.bytes (bs "x")) .none
      = .ok (.list []) :=
  ⟨by decide, by decide, by decide⟩

/-- Entry-level invariant for amended claim C10: along histories whose
set calls all pass non-empty lists, every stored entry has a non-empty
value list. -/
theorem reachableNE_entries_nonempty (h : Headers) (hr : ReachableNE h) :
    ∀ kv ∈ h.rawHeaders, kv.2 ≠ [] := by
  induction hr with
  | empty =>
    intro kv hkv
    simp at hkv
  | setNonempty h0 n vs hr0 hvs ih =>
    intro kv hkv
    simp only [setRawHeadersList] at hkv
    rcases mem_dictInsert _ _ _ _ hkv with rfl | hkv0
    · simp [hvs]
    · exact ih kv hkv0
  | add h0 n v hr0 ih =>
    intro kv hkv
    rw [addRawHeader_eq] at hkv
    simp only [setRawHeadersList] at hkv
    rcases mem_dictInsert _ _ _ _ hkv with rfl | hkv0
    · simp
    · exact ih kv hkv0
  | remove h0 n hr0 ih =>
    intro kv hkv
    exact ih kv (mem_dictRemove _ _ _ hkv)

/-- Claim C10 (amended): in every store reachable from the empty store by
setRawHeaders calls with non-empty lists, addRawHeader and removeHeader
(the counterexample shows setRawHeaders with the empty list violates
this), every present key maps to a non-empty value sequence. -/
theorem headers_no_empty_values (h : Headers) (hr : ReachableNE h)
    (k : ByteStr) (vs : List ByteStr)
    (hl : dictLookup h.rawHeaders k = some vs) : vs ≠ [] :=
  reachableNE_entries_nonempty h hr (k, vs) (dictLookup_mem _ _ _ hl)

/-- Witness for amended claim C10 on a concrete two-step history. -/
theorem headers_no_empty_values_witness : ([bs "a"] : List ByteStr) ≠ [] :=
  headers_no_empty_values
    (setRawHeadersList ⟨[]⟩ (.bytes (bs "x")) [.bytes (bs "a")])
    (ReachableNE.setNonempty ⟨[]⟩ (.bytes (bs "x")) [.bytes (bs "a")]
      ReachableNE.empty (by decide))
    (bs "x") [bs "a"] (by decide)

end HttpHeaders
